import Mathlib

/-
Verification of the extraction-and-summarization engine of advertools
(advertools/extract.py) against its specification.

The Python source is shallowly embedded:
  * a record collection (which may be a bare string, coerced by the source
    via `isinstance(text_list, str)`) becomes the inductive `TextList`;
  * `regex.findall` composed with a compiled pattern becomes an explicit
    function `String → List String` (the regular expressions used by the
    specialized extractors are embedded as executable matchers below);
  * `collections.Counter(xs).items()` (insertion order = first-occurrence
    order of the keys, values = multiplicities) becomes `counterItems`;
  * Python's `sorted` (a stable sort; `reverse=True` keeps equal keys in
    their original relative order) becomes the stable insertion sorts
    `sortByCountDesc` / `sortByKeyAsc`;
  * the float division `len(flat) / len(text_list)` is modelled as exact
    division in ℚ; it raises `ZeroDivisionError` on an empty collection,
    so the engine returns an `Option` that is `none` exactly there;
  * `len(set(flat))` becomes `flat.toFinset.card`.
-/

/-- Python regex whitespace (the class matched by backslash-s):
space, tab, newline, carriage return, vertical tab, form feed. -/
def isPySpace (c : Char) : Bool :=
  c = ' ' || c = '\t' || c = '\n' || c = '\r' || c = '\x0b' || c = '\x0c'

/-- Embedding of Python `str.lower()`: lowercase character by character
(the inputs exercised are covered by `Char.toLower`). -/
def pyLower (s : String) : String :=
  String.mk (s.toList.map Char.toLower)

/-- Number of occurrences of `v` in a list (Python `list.count` /
the multiplicity recorded by `collections.Counter`). -/
def countEq [DecidableEq α] (v : α) : List α → Nat
  | [] => 0
  | x :: xs => (if x = v then 1 else 0) + countEq v xs

/-- Embedding of `collections.Counter(l).items()`: the distinct values of
`l` in order of first occurrence, each paired with its multiplicity in
`l`.  (CPython dicts preserve insertion order, so `Counter(l).items()`
lists keys in first-occurrence order.) -/
def counterItems [DecidableEq α] : List α → List (α × Nat)
  | [] => []
  | x :: xs =>
    (x, 1 + countEq x xs) :: counterItems (xs.filter (fun y => decide (y ≠ x)))
termination_by l => l.length
decreasing_by
  simp only [List.length_cons]
  exact Nat.lt_succ_of_le (List.length_filter_le _ _)

/-- Insert into a list sorted by second component descending, keeping the
inserted element *before* any element with the same count: this is what a
stable descending sort does to an element that originally preceded the
tail it is inserted into. -/
def insertByCountDesc (p : α × Nat) : List (α × Nat) → List (α × Nat)
  | [] => [p]
  | q :: rest => if p.2 < q.2 then q :: insertByCountDesc p rest else p :: q :: rest

/-- Embedding of Python `sorted(pairs, key=lambda x: x[1], reverse=True)`:
a stable sort, descending on the second component (Python's `reverse=True`
does not reverse the relative order of equal keys). -/
def sortByCountDesc : List (α × Nat) → List (α × Nat)
  | [] => []
  | x :: xs => insertByCountDesc x (sortByCountDesc xs)

/-- Insert into a list sorted ascending by first component, after any
element with the same key (stability). -/
def insertByKeyAsc (p : Nat × Nat) : List (Nat × Nat) → List (Nat × Nat)
  | [] => [p]
  | q :: rest => if q.1 ≤ p.1 then q :: insertByKeyAsc p rest else p :: q :: rest

/-- Embedding of Python `sorted(pairs, key=lambda x: x[0])` (stable,
ascending on the first component). -/
def sortByKeyAsc : List (Nat × Nat) → List (Nat × Nat)
  | [] => []
  | x :: xs => insertByKeyAsc x (sortByKeyAsc xs)

/-- Index of the first occurrence of `v` in a list (length of the list if
absent); used to state the first-occurrence tie-break of the rankings. -/
def firstIdx [DecidableEq α] : List α → α → Nat
  | [], _ => 0
  | x :: xs, v => if x = v then 0 else firstIdx xs v + 1

/-- The `overview` sub-dictionary of a summary, for a feature `F`. -/
structure Overview where
  num_posts : Nat
  num_F : Nat
  F_per_post : ℚ
  unique_F : Nat

/-- The canonical summary dictionary built by `extract` (field names
follow the spec's generic `F` naming; in the source the keys are formed
from `key_name` by appending `'s'` etc.). -/
structure Summary where
  F_s : List (List String)
  F_s_flat : List String
  F_counts : List Nat
  F_freq : List (Nat × Nat)
  top_F_s : List (String × Nat)
  overview : Overview

/-- The `text_list` argument of `extract`: either a bare string or a list
of strings (`isinstance(text_list, str)` in the source). -/
inductive TextList where
  | single (s : String)
  | many (l : List String)

/-- The record list actually iterated by the engine: a bare string is
wrapped into a one-element list (`text_list = [text_list]`). -/
def normalizeTL : TextList → List String
  | .single s => [s]
  | .many l => l

/-- Body of `extract` (advertools/extract.py, lines 36-61) minus the
empty-collection failure: builds the summary dictionary.  `findall` is
the embedding of `regex.findall` for the compiled pattern.  Note the
source's `if not extracted:` tests *truthiness*, so an empty `extracted`
list falls back to applying the pattern, exactly as `None` does. -/
def extractCore (text_list : TextList) (findall : String → List String)
    (extracted : Option (List (List String))) : Summary :=
  let records := normalizeTL text_list
  let ext := match extracted with
    | some l => if l = [] then records.map (fun t => findall (pyLower t)) else l
    | none => records.map (fun t => findall (pyLower t))
  let flat := ext.flatten
  { F_s := ext
    F_s_flat := flat
    F_counts := ext.map List.length
    F_freq := sortByKeyAsc (counterItems (ext.map List.length))
    top_F_s := sortByCountDesc (counterItems flat)
    overview :=
      { num_posts := records.length
        num_F := flat.length
        F_per_post := (flat.length : ℚ) / (records.length : ℚ)
        unique_F := flat.toFinset.card } }

/-- Embedding of `extract` (advertools/extract.py, lines 17-62).  The
division `len(flat) / len(text_list)` raises `ZeroDivisionError` on an
empty record collection, aborting the call before any value is returned;
this is modelled by returning `none` there and `some` of the summary
otherwise. -/
def extract (text_list : TextList) (findall : String → List String)
    (extracted : Option (List (List String))) : Option Summary :=
  if normalizeTL text_list = [] then none
  else some (extractCore text_list findall extracted)

/-
Embedding of `re.findall` for the patterns the extractors build.  A
pattern is represented by its anchored matcher `tryAt : Nat → Option
(Nat × β)`: anchored at position `i` it either fails or returns the end
position of the (backtracking-leftmost) match together with the value the
match contributes (the matched substring, or the tuple of capture
groups).  `reFindall` then scans positions left to right and emits the
non-overlapping matches, resuming after each match (one past it if it
were zero-width), exactly as `re.findall` iterates.
-/

/-- One step of the `re.findall` scan; `fuel` is an upper bound on the
number of scan steps (each step advances the position by at least one). -/
def scanAux {β : Type} (tryAt : Nat → Option (Nat × β)) (stop : Nat) :
    Nat → Nat → List β
  | 0, _ => []
  | fuel + 1, i =>
    if i > stop then []
    else
      match tryAt i with
      | some (e, b) => b :: scanAux tryAt stop fuel (if i < e then e else i + 1)
      | none => scanAux tryAt stop fuel (i + 1)

/-- All non-overlapping matches of a pattern over a text of length `len`,
left to right (the embedding of `pattern.findall(text)`). -/
def reFindall {β : Type} (tryAt : Nat → Option (Nat × β)) (len : Nat) : List β :=
  scanAux tryAt len (len + 1) 0

/-- The substring of positions `[i, e)` of a text. -/
def sliceStr (cs : List Char) (i e : Nat) : String :=
  String.mk ((cs.drop i).take (e - i))

/-- Does the literal `t` occur at position `i` of `cs`? -/
def litAt (cs t : List Char) (i : Nat) : Bool :=
  decide ((cs.drop i).take t.length = t)

/-- Is the character at position `i` a regex word character?  The inputs
exercised here are ASCII, so `Char.isAlphanum || underscore` coincides
with the `re` module's notion of a word character on them. -/
def wordCharAt (cs : List Char) (i : Nat) : Bool :=
  match cs.get? i with
  | some c => c.isAlphanum || c = '_'
  | none => false

/-- Regex word boundary at position `i`: a word character on exactly one
side of the position (positions before 0 and past the end count as
non-word). -/
def boundaryAt (cs : List Char) (i : Nat) : Bool :=
  (if i = 0 then false else wordCharAt cs (i - 1)) != wordCharAt cs i

/-- Length of the maximal run of non-whitespace characters starting at
position `i` (how far a greedy non-whitespace star can reach). -/
def nonspaceRunLen (cs : List Char) (i : Nat) : Nat :=
  ((cs.drop i).takeWhile (fun c => !isPySpace c)).length

/-- Anchored matcher for one whole-word alternative of `extract_words`:
word boundary, the target literally, word boundary. -/
def tryWholeWordAt (t cs : List Char) (i : Nat) : Option Nat :=
  if boundaryAt cs i && litAt cs t i && boundaryAt cs (i + t.length) then
    some (i + t.length)
  else none

/-- Greedy search for the longest prefix a non-whitespace star can take
before the literal `t` matches: tries `a, a-1, …, 0` and returns the
first (largest) consumption length that lets `t` match at `i + a`. -/
def greedyLit (cs t : List Char) (i : Nat) : Nat → Option Nat
  | 0 => if litAt cs t i then some 0 else none
  | a + 1 =>
    if litAt cs t (i + (a + 1)) then some (a + 1) else greedyLit cs t i a

/-- Anchored matcher for one substring-mode alternative of
`extract_words`: non-whitespace star (greedy), the target literally,
non-whitespace star (greedy).  The leading star can consume at most the
non-whitespace run at `i`; the trailing star extends greedily to the end
of the run after the literal. -/
def trySubstrAt (t cs : List Char) (i : Nat) : Option Nat :=
  match greedyLit cs t i (nonspaceRunLen cs i) with
  | some a => some (i + a + t.length + nonspaceRunLen cs (i + a + t.length))
  | none => none

/-- Anchored matcher for the alternation `extract_words` compiles: the
alternatives are tried in the order the targets were given, first match
wins (regex alternation semantics). -/
def tryWordsAt (entire : Bool) (targets : List (List Char)) (cs : List Char)
    (i : Nat) : Option Nat :=
  targets.findSome? (fun t =>
    if entire then tryWholeWordAt t cs i else trySubstrAt t cs i)

/-- The embedding of `word_regex.findall(text)` for the pattern compiled
by `extract_words`.  The targets reach this matcher lowercased, and the
engine lowercases the text, so the `re.IGNORECASE` flag the source sets
is inert; targets are matched literally (the targets exercised contain no
regex metacharacters). -/
def wordFindall (entire : Bool) (targets : List (List Char)) (s : String) :
    List String :=
  let cs := s.toList
  reFindall
    (fun i => (tryWordsAt entire targets cs i).map (fun e => (e, sliceStr cs i e)))
    cs.length

/-- Embedding of `extract_words` (advertools/extract.py, lines 643-742):
lowercase the records and the targets, build the alternation (word
boundaries around each target in whole-word mode, non-whitespace stars
around it in substring mode), and hand the pattern to the engine.  A
single target string is broadcast to a one-element list. -/
def extract_words (text_list : List String) (words_to_extract : TextList)
    (entire_words_only : Bool) : Option Summary :=
  let texts := text_list.map pyLower
  let words := (normalizeTL words_to_extract).map pyLower
  extract (TextList.many texts)
    (wordFindall entire_words_only (words.map String.toList)) none

/-- Does a character at position `j` repeat at least `k` further times at
positions `j+1, …, j+k`?  This is the condition under which the middle
capture group plus the `k` back-references of the intense-word pattern
match at `j`. -/
def repAt (cs : List Char) (k j : Nat) : Bool :=
  match cs.get? j with
  | some c => (List.range k).all (fun t => decide (cs.get? (j + 1 + t) = some c))
  | none => false

/-- Greedy search for the longest prefix the leading capture group
`(non-whitespace star)` of the intense-word pattern can take: tries
`a, a-1, …, 0` and returns the first (largest) consumption length whose
following position starts a `k+1`-fold character repetition. -/
def greedyRep (cs : List Char) (k i : Nat) : Nat → Option Nat
  | 0 => if repAt cs k i then some 0 else none
  | a + 1 =>
    if repAt cs k (i + (a + 1)) then some (a + 1) else greedyRep cs k i a

/-- Anchored matcher for the pattern `extract_intense_words` builds with
`min_reps = k + 1`: group 1 is a greedy non-whitespace star, group 2 one
non-whitespace character, group 3 the `k` back-references to group 2
followed by a greedy non-whitespace star.  Group 2 must fall inside the
non-whitespace run starting at `i` (hence the `a ≤ m - 1` bound on the
greedy search); the back-referenced characters equal group 2's character
and are contiguous with it, so they lie in the same run, and the final
star extends the match to the end of that run.  Returns the end position
and the three capture groups. -/
def tryIntenseAt (k : Nat) (cs : List Char) (i : Nat) :
    Option (Nat × (List Char × List Char × List Char)) :=
  let m := nonspaceRunLen cs i
  if m = 0 then none
  else
    match greedyRep cs k i (m - 1) with
    | some a =>
      let j := i + a
      let e := j + 1 + k
      let stop := e + nonspaceRunLen cs e
      some (stop,
        ((cs.drop i).take a, (cs.drop j).take 1,
          (cs.drop (j + 1)).take (stop - (j + 1))))
    | none => none

/-- The embedding of `regex.findall(text)` for the intense-word pattern:
each match contributes its tuple of capture groups (the pattern has three
groups, so `findall` returns tuples). -/
def intenseFindall (k : Nat) (s : String) :
    List (List Char × List Char × List Char) :=
  let cs := s.toList
  reFindall (tryIntenseAt k cs) cs.length

/-- Reassembly `''.join(x)` of one capture-group tuple into the full
matched token. -/
def joinGroups (g : List Char × List Char × List Char) : String :=
  String.mk (g.1 ++ g.2.1 ++ g.2.2)

/-- Embedding of `extract_intense_words` (advertools/extract.py, lines
400-405): build the repetition pattern for `min_reps`, precompute the
per-record matches by joining each tuple of capture groups, and hand both
the pattern and the precomputed lists to the engine.  (The engine only
consults the pattern argument when the precomputed list is empty, i.e.
when `text_list` is empty, where it finds no matches anyway.)  Note the
precomputation runs on the original-case text. -/
def extract_intense_words (text_list : List String) (min_reps : Nat) :
    Option Summary :=
  let k := min_reps - 1
  let extracted := text_list.map (fun text =>
    (intenseFindall k text).map joinGroups)
  extract (TextList.many text_list)
    (fun text => (intenseFindall k text).map joinGroups) (some extracted)

/-- Length of the leading run of copies of `c` in a list. -/
def leadEq (c : Char) : List Char → Nat
  | [] => 0
  | d :: rest => if d = c then 1 + leadEq c rest else 0

/-- Length of the longest run of consecutive equal characters: the claim
phrase "some character repeats at least `min_reps` times consecutively
within it" means `min_reps ≤ maxRunLen`. -/
def maxRunLen : List Char → Nat
  | [] => 0
  | c :: rest => max (1 + leadEq c rest) (maxRunLen rest)


/-- Modelled from the spec: the `CURRENCY` / `CURRENCY_RAW` patterns live
in advertools/regex.py, which is not under src/; the spec says they match
a single character of the Unicode currency-symbol class.  The class is
modelled by this predicate, covering the symbols the spec's examples use
plus the common ones. -/
def isCurrencySymbol (c : Char) : Bool :=
  c = '$' || c = '£' || c = '€' || c = '¥' || c = '¢' || c = '₿' ||
    c = '₹' || c = '₽'

/-- The embedding of `CURRENCY.findall(text)`: the pattern is a one
character class, so its non-overlapping matches are exactly the currency
characters of the text in order, each as a one-character string. -/
def currencyFindall (s : String) : List String :=
  (s.toList.filter isCurrencySymbol).map (fun c => String.mk [c])

/-- Modelled from the spec: `unicodedata.name(c).lower()` (the Unicode
display name, lowercased) for the currency symbols covered by
`isCurrencySymbol`. -/
def uniName (c : Char) : String :=
  if c = '$' then ("dollar sign")
  else if c = '£' then ("pound sign")
  else if c = '€' then ("euro sign")
  else if c = '¥' then ("yen sign")
  else if c = '¢' then ("cent sign")
  else if c = '₿' then ("bitcoin sign")
  else if c = '₹' then ("indian rupee sign")
  else if c = '₽' then ("ruble sign")
  else ("")

/-- A character the regex dot matches (anything but a newline). -/
def nonNewline (c : Char) : Bool := !(c = '\n')

/-- Do `a` dot-matchable characters exist at positions `i, …, i+a-1`? -/
def dotsAt (cs : List Char) (i a : Nat) : Bool :=
  decide (((cs.drop i).take a).length = a) && ((cs.drop i).take a).all nonNewline

/-- Is the character at position `i` a currency symbol? -/
def curAt (cs : List Char) (i : Nat) : Bool :=
  match cs.get? i with
  | some c => isCurrencySymbol c
  | none => false

/-- Greedy search for the longest left context the window pattern's
leading `dot, zero to left_chars times` can take: tries `a, a-1, …, 0`
and returns the first (largest) count of dot-matchable characters after
which a currency symbol sits. -/
def greedyDotCur (cs : List Char) (i : Nat) : Nat → Option Nat
  | 0 => if curAt cs i then some 0 else none
  | a + 1 =>
    if dotsAt cs i (a + 1) && curAt cs (i + (a + 1)) then some (a + 1)
    else greedyDotCur cs i a

/-- Length the greedy trailing `dot, zero to r times` consumes from
position `p`: up to `r` characters, stopping at a newline or the end of
the text (windows are truncated, never padded). -/
def dotRunCapped (cs : List Char) (p r : Nat) : Nat :=
  (((cs.drop p).takeWhile nonNewline).take r).length

/-- Anchored matcher for the context-window pattern `extract_currency`
compiles: up to `l` characters, a currency symbol, up to `r` characters,
both repetitions greedy.  Returns the end position and the matched
window. -/
def tryWindowAt (l r : Nat) (cs : List Char) (i : Nat) :
    Option (Nat × String) :=
  match greedyDotCur cs i l with
  | some a =>
    let p := i + a + 1
    let e := p + dotRunCapped cs p r
    some (e, sliceStr cs i e)
  | none => none

/-- The embedding of `surrounding_text_regex.findall(text)`. -/
def surroundingFindall (l r : Nat) (s : String) : List String :=
  let cs := s.toList
  reFindall (tryWindowAt l r cs) cs.length

/-- The dictionary returned by `extract_currency`: the engine's summary
plus the two enrichment fields. -/
structure CurrencySummary where
  base : Summary
  currency_symbol_names : List (List String)
  surrounding_text : List (List String)

/-- Embedding of `extract_currency` (advertools/extract.py, lines
65-138): base summary via the engine, Unicode names of the matched
symbols per record (an empty record yields an empty name list), and the
context windows found on each record's original-case text.  Each base
match is a one-character string, whose character is what
`unicodedata.name` is applied to. -/
def extract_currency (text_list : List String) (left_chars right_chars : Nat) :
    Option CurrencySummary :=
  (extract (TextList.many text_list) currencyFindall none).map (fun s =>
    { base := s
      currency_symbol_names := s.F_s.map (fun x =>
        if x = [] then []
        else x.map (fun sym =>
          match sym.toList with
          | [c] => uniName c
          | _ => ("")))
      surrounding_text :=
        text_list.map (surroundingFindall left_chars right_chars) })

/-- Right-to-left accumulation for the tokenizer: returns the maximal
non-whitespace run the list starts with (empty if it starts with
whitespace or is empty) and the tokens occurring after that run. -/
def splitTokensAux : List Char → List Char × List (List Char)
  | [] => ([], [])
  | c :: rest =>
    let r := splitTokensAux rest
    if isPySpace c then ([], if r.1 = [] then r.2 else r.1 :: r.2)
    else (c :: r.1, r.2)

/-- Maximal runs of non-whitespace characters, in order: the
whitespace-delimited tokens of a text. -/
def splitTokens (cs : List Char) : List (List Char) :=
  let r := splitTokensAux cs
  if r.1 = [] then r.2 else r.1 :: r.2

/-- Does the lowercased text start with `p`?  Embedding of
`s.lower().startswith(p)` for an all-lowercase `p` (Python's `str.lower`
maps characters independently on the inputs exercised). -/
def lcHasPre (cs p : List Char) : Bool :=
  decide ((cs.map Char.toLower).take p.length = p)

/-- Modelled from the spec: the `URL` pattern lives in
advertools/regex.py, which is not under src/; the spec says it matches
URL-shaped tokens with no scheme/host validation, including bare
`domain.tld` forms.  Modelled as: a whitespace-delimited token that
carries an explicit scheme or contains a dot. -/
def urlShaped (cs : List Char) : Bool :=
  lcHasPre cs (String.toList ("http://")) ||
    lcHasPre cs (String.toList ("https://")) ||
    lcHasPre cs (String.toList ("ftp://")) ||
    cs.contains '.'

/-- Modelled from the spec: `URL.findall(x)` — the URL-shaped tokens of
the text, in order. -/
def urlFindall (s : String) : List String :=
  ((splitTokens s.toList).filter urlShaped).map String.mk

/-- The in-place rewrite of `extract_urls`'s normalization loop
(advertools/extract.py, lines 625-628): a matched token beginning
case-insensitively with `www` or `ftp` gets `http://` prepended. -/
def normalizeUrl (u : String) : String :=
  if lcHasPre u.toList (String.toList ("www")) ||
      lcHasPre u.toList (String.toList ("ftp")) then
    ("http://") ++ u
  else u

/-- The character list after the first `://` of a text, if any. -/
def afterScheme : List Char → Option (List Char)
  | [] => none
  | c :: rest =>
    if c = ':' && decide (rest.take 2 = ['/', '/']) then some (rest.drop 2)
    else afterScheme rest

/-- Modelled from the spec: `urlparse(u).netloc`, the host
(network-location segment) of a URL — the text between the `://` and the
next `/`, `?` or `#`.  Every URL it is applied to has been normalized to
carry a scheme. -/
def netloc (u : String) : String :=
  match afterScheme u.toList with
  | some r =>
    String.mk (r.takeWhile (fun c => !(c = '/' || c = '?' || c = '#')))
  | none => ("")

/-- Embedding of `d.split('.')[-1]`: the segment after the last dot
(empty if the text ends with a dot). -/
def lastDotPart (d : String) : String :=
  String.mk (d.toList.foldl (fun acc c => if c = '.' then [] else acc ++ [c]) [])

/-- The dictionary returned by `extract_urls`: the engine's summary plus
the two extra rankings. -/
structure UrlSummary where
  base : Summary
  top_domains : List (String × Nat)
  top_tlds : List (String × Nat)

/-- Embedding of `extract_urls` (advertools/extract.py, lines 564-640):
precompute the matches on the original-case text, normalize them in
place, derive hosts and top-level domains with their rankings, and build
the base summary from the normalized lists. -/
def extract_urls (text_list : List String) : Option UrlSummary :=
  let extracted := text_list.map (fun x => (urlFindall x).map normalizeUrl)
  let domains := extracted.map (fun e => e.map netloc)
  let domains_flat := domains.flatten
  let top_domains := sortByCountDesc (counterItems domains_flat)
  let tlds := domains.map (fun dom => dom.map lastDotPart)
  let tlds_flat := tlds.flatten
  let top_tlds := sortByCountDesc (counterItems tlds_flat)
  (extract (TextList.many text_list) urlFindall (some extracted)).map (fun s =>
    { base := s, top_domains := top_domains, top_tlds := top_tlds })

/-- One row of the static emoji taxonomy table `EMOJI_ENTRIES`
(advertools/emoji.py, an external collaborator of the core). -/
structure EmojiEntry where
  name : String
  group : String
  sub_group : String

/-- Embedding of a Python list comprehension whose body may raise (a
failed dictionary lookup aborts the whole call): `some` of the mapped
list when every element succeeds, `none` as soon as any element fails. -/
def optionMapList (f : α → Option β) : List α → Option (List β)
  | [] => some []
  | a :: l =>
    match f a with
    | none => none
    | some b =>
      match optionMapList f l with
      | none => none
      | some bs => some (b :: bs)

/-- The dictionary returned by `extract_emoji`. -/
structure EmojiSummary where
  emoji : List (List String)
  emoji_text : List (List String)
  emoji_flat : List String
  emoji_flat_text : List String
  emoji_counts : List Nat
  emoji_freq : List (Nat × Nat)
  top_emoji : List (String × Nat)
  top_emoji_text : List (String × Nat)
  top_emoji_groups : List (String × Nat)
  top_emoji_sub_groups : List (String × Nat)
  overview : Overview

/-- Embedding of `extract_emoji` (advertools/extract.py, lines 141-243).
The emoji pattern and the taxonomy table are external collaborators
supplied to the core, so they are parameters here: `emojiFindall` embeds
`re.findall(EMOJI, ·)` and `entries` the lookup `EMOJI_ENTRIES[·]`, whose
failure (a `KeyError` in the source) aborts the whole call — hence the
`Option` plumbing: any matched grapheme missing from the table makes the
result `none`.  As in the source, the per-record division fails on an
empty record collection. -/
def extract_emoji (emojiFindall : String → List String)
    (entries : String → Option EmojiEntry) (text_list : List String) :
    Option EmojiSummary :=
  let emoji := text_list.map (fun text => emojiFindall (pyLower text))
  let emoji_flat := emoji.flatten
  match optionMapList entries emoji_flat with
  | none => none
  | some flatEntries =>
    match optionMapList
        (optionMapList (fun em => (entries em).map EmojiEntry.name)) emoji with
    | none => none
    | some emoji_text =>
      if text_list.length = 0 then none
      else
        let emoji_flat_text := flatEntries.map EmojiEntry.name
        let emoji_groups := flatEntries.map EmojiEntry.group
        let emoji_sub_groups := flatEntries.map EmojiEntry.sub_group
        some
          { emoji := emoji
            emoji_text := emoji_text
            emoji_flat := emoji_flat
            emoji_flat_text := emoji_flat_text
            emoji_counts := emoji.map List.length
            emoji_freq := sortByKeyAsc (counterItems (emoji.map List.length))
            top_emoji := sortByCountDesc (counterItems emoji_flat)
            top_emoji_text := sortByCountDesc (counterItems emoji_flat_text)
            top_emoji_groups := sortByCountDesc (counterItems emoji_groups)
            top_emoji_sub_groups :=
              sortByCountDesc (counterItems emoji_sub_groups)
            overview :=
              { num_posts := text_list.length
                num_F := emoji_flat.length
                F_per_post := (emoji_flat.length : ℚ) / (text_list.length : ℚ)
                unique_F := emoji_flat.toFinset.card } }


/-
Helper lemmas: the fields of the summary `extractCore` builds, and the
basic theory of `counterItems` and the stable sorts.
-/

theorem extractCore_F_s_none (records : TextList) (findall : String → List String) :
    (extractCore records findall none).F_s =
      (normalizeTL records).map (fun t => findall (pyLower t)) := rfl

theorem extractCore_F_s_some_nil (records : TextList) (findall : String → List String) :
    (extractCore records findall (some [])).F_s =
      (normalizeTL records).map (fun t => findall (pyLower t)) := rfl

theorem extractCore_F_s_some (records : TextList) (findall : String → List String)
    (l : List (List String)) (hl : l ≠ []) :
    (extractCore records findall (some l)).F_s = l := by
  unfold extractCore
  simp [hl]

theorem extractCore_F_s_flat (records : TextList) (findall : String → List String)
    (extracted : Option (List (List String))) :
    (extractCore records findall extracted).F_s_flat =
      (extractCore records findall extracted).F_s.flatten := rfl

theorem extractCore_F_counts (records : TextList) (findall : String → List String)
    (extracted : Option (List (List String))) :
    (extractCore records findall extracted).F_counts =
      (extractCore records findall extracted).F_s.map List.length := rfl

theorem extractCore_top (records : TextList) (findall : String → List String)
    (extracted : Option (List (List String))) :
    (extractCore records findall extracted).top_F_s =
      sortByCountDesc (counterItems (extractCore records findall extracted).F_s_flat) := rfl

theorem extractCore_overview (records : TextList) (findall : String → List String)
    (extracted : Option (List (List String))) :
    (extractCore records findall extracted).overview =
      { num_posts := (normalizeTL records).length
        num_F := (extractCore records findall extracted).F_s_flat.length
        F_per_post := ((extractCore records findall extracted).F_s_flat.length : ℚ) /
          ((normalizeTL records).length : ℚ)
        unique_F := (extractCore records findall extracted).F_s_flat.toFinset.card } := rfl

theorem extract_eq_some (records : TextList) (findall : String → List String)
    (extracted : Option (List (List String))) (hne : normalizeTL records ≠ []) :
    extract records findall extracted =
      some (extractCore records findall extracted) := by
  rw [extract, if_neg hne]

theorem extract_some_inv (records : TextList) (findall : String → List String)
    (extracted : Option (List (List String))) (s : Summary)
    (h : extract records findall extracted = some s) :
    normalizeTL records ≠ [] ∧ s = extractCore records findall extracted := by
  rw [extract] at h
  split at h
  case isTrue => exact absurd h (by simp)
  case isFalse hne =>
    refine ⟨hne, ?_⟩
    injection h with h'
    exact h'.symm

/-- The number of entries of `counterItems l` is the number of distinct
values of `l`. -/
theorem counterItems_length [DecidableEq α] (l : List α) :
    (counterItems l).length = l.toFinset.card := by
  match l with
  | [] => simp [counterItems]
  | x :: xs =>
    have ih := counterItems_length (xs.filter (fun y => decide (y ≠ x)))
    have hfin : (xs.filter (fun y => decide (y ≠ x))).toFinset =
        xs.toFinset.erase x := by
      ext a
      simp only [List.mem_toFinset, List.mem_filter, decide_eq_true_eq,
        Finset.mem_erase]
      tauto
    have hx : x ∉ xs.toFinset.erase x := Finset.not_mem_erase _ _
    have hins : insert x (xs.toFinset.erase x) = insert x xs.toFinset := by
      ext a
      by_cases ha : a = x <;> simp [ha]
    rw [counterItems, List.length_cons, ih, hfin, List.toFinset_cons, ← hins,
      Finset.card_insert_of_not_mem hx]
termination_by l.length
decreasing_by
  simp only [List.length_cons]
  exact Nat.lt_succ_of_le (List.length_filter_le _ _)

/-
Claim C1, C3, C7, C10 theorems (the generic engine).
-/

/-- C1: for every record collection (a bare string counting as a
one-element collection), pattern, and optional precomputed matches with
one match-list per record, any summary `extract` returns has one
per-record match list per input record, a flat list equal to the
concatenation of the per-record lists in record order then intra-record
order, one count per record equal to the length of that record's match
list, and counts summing to the flat list's length. -/
theorem extract_c1 (records : TextList) (findall : String → List String)
    (extracted : Option (List (List String)))
    (hpre : ∀ l, extracted = some l → l.length = (normalizeTL records).length)
    (s : Summary) (h : extract records findall extracted = some s) :
    s.F_s.length = (normalizeTL records).length ∧
      s.F_s_flat = s.F_s.flatten ∧
      s.F_counts = s.F_s.map List.length ∧
      s.F_counts.sum = s.F_s_flat.length := by
  obtain ⟨hne, rfl⟩ := extract_some_inv records findall extracted s h
  refine ⟨?_, rfl, rfl, ?_⟩
  · cases extracted with
    | none => rw [extractCore_F_s_none, List.length_map]
    | some l =>
      by_cases hl : l = []
      · subst hl
        rw [extractCore_F_s_some_nil, List.length_map]
      · rw [extractCore_F_s_some records findall l hl]
        exact hpre l rfl
  · rw [extractCore_F_counts, extractCore_F_s_flat, List.length_flatten]

/-- Witness for C1 at a concrete input. -/
theorem extract_c1_witness :
    (extractCore (TextList.many ["aa", "b"]) (fun t => [t]) none).F_s.length = 2 ∧
      (extractCore (TextList.many ["aa", "b"]) (fun t => [t]) none).F_s_flat =
        (extractCore (TextList.many ["aa", "b"]) (fun t => [t]) none).F_s.flatten ∧
      (extractCore (TextList.many ["aa", "b"]) (fun t => [t]) none).F_counts =
        (extractCore (TextList.many ["aa", "b"]) (fun t => [t]) none).F_s.map
          List.length ∧
      (extractCore (TextList.many ["aa", "b"]) (fun t => [t]) none).F_counts.sum =
        (extractCore (TextList.many ["aa", "b"]) (fun t => [t]) none).F_s_flat.length :=
  extract_c1 (TextList.many ["aa", "b"]) (fun t => [t]) none
    (fun _ h => by cases h)
    (extractCore (TextList.many ["aa", "b"]) (fun t => [t]) none) rfl

/-- C3: calling the engine with an empty record collection fails (the
per-post division raises `ZeroDivisionError`) instead of returning any
summary value; no partial result is produced. -/
theorem extract_c3 (findall : String → List String)
    (extracted : Option (List (List String))) :
    extract (TextList.many []) findall extracted = none := by
  simp [extract, normalizeTL]

/-- C7: in any summary `extract` returns, `unique_F` is the number of
distinct values of the flat list (equivalently, the number of entries of
its value-multiplicity table), `num_F` is the flat list's length,
`num_posts` is the number of records (nonzero whenever a summary is
returned), and `F_per_post` is the exact rational ratio
`num_F / num_posts` — true division, not integer division. -/
theorem extract_c7 (records : TextList) (findall : String → List String)
    (extracted : Option (List (List String)))
    (s : Summary) (h : extract records findall extracted = some s) :
    s.overview.unique_F = s.F_s_flat.toFinset.card ∧
      s.overview.unique_F = (counterItems s.F_s_flat).length ∧
      s.overview.num_F = s.F_s_flat.length ∧
      s.overview.num_posts = (normalizeTL records).length ∧
      s.overview.num_posts ≠ 0 ∧
      s.overview.F_per_post =
        (s.overview.num_F : ℚ) / (s.overview.num_posts : ℚ) := by
  obtain ⟨hne, rfl⟩ := extract_some_inv records findall extracted s h
  refine ⟨?_, ?_, ?_, ?_, ?_, ?_⟩
  · rfl
  · rw [counterItems_length]
    rfl
  · rfl
  · rfl
  · show (normalizeTL records).length ≠ 0
    intro hz
    exact hne (List.length_eq_zero.mp hz)
  · rfl

/-- Witness for C7 at a concrete input. -/
theorem extract_c7_witness :
    (extractCore (TextList.many ["aa", "b"]) (fun t => [t, t]) none).overview.unique_F =
        (extractCore (TextList.many ["aa", "b"]) (fun t => [t, t]) none).F_s_flat.toFinset.card ∧
      (extractCore (TextList.many ["aa", "b"]) (fun t => [t, t]) none).overview.unique_F =
        (counterItems
          (extractCore (TextList.many ["aa", "b"]) (fun t => [t, t]) none).F_s_flat).length ∧
      (extractCore (TextList.many ["aa", "b"]) (fun t => [t, t]) none).overview.num_F =
        (extractCore (TextList.many ["aa", "b"]) (fun t => [t, t]) none).F_s_flat.length ∧
      (extractCore (TextList.many ["aa", "b"]) (fun t => [t, t]) none).overview.num_posts = 2 ∧
      (extractCore (TextList.many ["aa", "b"]) (fun t => [t, t]) none).overview.num_posts ≠ 0 ∧
      (extractCore (TextList.many ["aa", "b"]) (fun t => [t, t]) none).overview.F_per_post =
        ((extractCore (TextList.many ["aa", "b"]) (fun t => [t, t]) none).overview.num_F : ℚ) /
          ((extractCore (TextList.many ["aa", "b"]) (fun t => [t, t]) none).overview.num_posts : ℚ) :=
  extract_c7 (TextList.many ["aa", "b"]) (fun t => [t, t]) none
    (extractCore (TextList.many ["aa", "b"]) (fun t => [t, t]) none) rfl

/-- C10: the precomputed-matches path of the engine is selected by
truthiness, not presence: an empty `extracted` list behaves exactly like
an absent one (the pattern is applied to the lowercased records), and
only a non-empty `extracted` list bypasses pattern application, becoming
the per-record matches verbatim. -/
theorem extract_c10 (records : TextList) (findall : String → List String)
    (l : List (List String)) :
    extract records findall (some []) = extract records findall none ∧
      (extractCore records findall none).F_s =
        (normalizeTL records).map (fun t => findall (pyLower t)) ∧
      (l ≠ [] → (extractCore records findall (some l)).F_s = l) := by
  refine ⟨rfl, rfl, fun hl => ?_⟩
  exact extractCore_F_s_some records findall l hl

/-- Witness for C10 at a concrete input. -/
theorem extract_c10_witness :
    (extract (TextList.many ["ab"]) (fun t => [t]) (some []) =
        extract (TextList.many ["ab"]) (fun t => [t]) none) ∧
      (extractCore (TextList.many ["ab"]) (fun t => [t]) (some [["z"]])).F_s =
        [["z"]] :=
  ⟨(extract_c10 (TextList.many ["ab"]) (fun t => [t]) [["z"]]).1,
    (extract_c10 (TextList.many ["ab"]) (fun t => [t]) [["z"]]).2.2
      (by decide)⟩

/-
Theory of `counterItems` and the stable descending sort, towards C2.
-/

theorem countEq_add_filter [DecidableEq α] (x : α) (xs : List α) :
    countEq x xs + (xs.filter (fun y => decide (y ≠ x))).length = xs.length := by
  induction xs with
  | nil => rfl
  | cons y ys ih =>
    rw [countEq, List.filter_cons, List.length_cons]
    by_cases hy : y = x
    · rw [if_pos hy, if_neg (by simp [hy])]
      omega
    · rw [if_neg hy, if_pos (by simp [hy]), List.length_cons]
      omega

/-- The multiplicities recorded by `counterItems` sum to the length of
the list: every element is counted under exactly one key. -/
theorem counterItems_snd_sum [DecidableEq α] (l : List α) :
    ((counterItems l).map Prod.snd).sum = l.length := by
  match l with
  | [] => simp [counterItems]
  | x :: xs =>
    have ih := counterItems_snd_sum (xs.filter (fun y => decide (y ≠ x)))
    rw [counterItems, List.map_cons, List.sum_cons, ih, List.length_cons]
    have := countEq_add_filter x xs
    omega
termination_by l.length
decreasing_by
  simp only [List.length_cons]
  exact Nat.lt_succ_of_le (List.length_filter_le _ _)

theorem mem_counterItems_fst [DecidableEq α] (l : List α) (p : α × Nat)
    (hp : p ∈ counterItems l) : p.1 ∈ l := by
  match l with
  | [] => simp [counterItems] at hp
  | x :: xs =>
    rw [counterItems, List.mem_cons] at hp
    rcases hp with hp | hp
    · subst hp
      exact List.mem_cons_self _ _
    · have := mem_counterItems_fst (xs.filter (fun y => decide (y ≠ x))) p hp
      exact List.mem_cons_of_mem _ (List.mem_of_mem_filter this)
termination_by l.length
decreasing_by
  simp only [List.length_cons]
  exact Nat.lt_succ_of_le (List.length_filter_le _ _)

/-- Removing other elements by `filter` preserves the relative order of
first occurrences. -/
theorem firstIdx_filter_lt [DecidableEq α] (p : α → Bool) (l : List α)
    (a b : α) (ha : a ∈ l.filter p) (hb : b ∈ l.filter p)
    (h : firstIdx (l.filter p) a < firstIdx (l.filter p) b) :
    firstIdx l a < firstIdx l b := by
  induction l with
  | nil => simp at ha
  | cons y ys ih =>
    by_cases hpy : p y
    · rw [List.filter_cons, if_pos hpy] at ha hb h
      by_cases hya : y = a
      · subst hya
        rw [firstIdx, if_pos rfl]
        by_cases hyb : y = b
        · subst hyb
          rw [firstIdx, if_pos rfl] at h
          exact absurd h (Nat.lt_irrefl _)
        · rw [firstIdx, if_neg hyb]
          omega
      · rw [firstIdx, if_neg hya] at h ⊢
        by_cases hyb : y = b
        · subst hyb
          rw [firstIdx, if_pos rfl] at h
          omega
        · rw [firstIdx, if_neg hyb] at h ⊢
          have ha' : a ∈ ys.filter p := by
            rcases List.mem_cons.mp ha with h' | h'
            · exact absurd h'.symm hya
            · exact h'
          have hb' : b ∈ ys.filter p := by
            rcases List.mem_cons.mp hb with h' | h'
            · exact absurd h'.symm hyb
            · exact h'
          have := ih ha' hb' (by omega)
          omega
    · rw [List.filter_cons, if_neg hpy] at ha hb h
      have hya : ¬ y = a := by
        intro heq
        subst heq
        exact hpy (List.of_mem_filter ha)
      have hyb : ¬ y = b := by
        intro heq
        subst heq
        exact hpy (List.of_mem_filter hb)
      rw [firstIdx, if_neg hya, firstIdx, if_neg hyb]
      have := ih ha hb h
      omega

/-- The entries of `counterItems l` are ordered by the first occurrence
of their key in `l`. -/
theorem counterItems_pairwise [DecidableEq α] (l : List α) :
    (counterItems l).Pairwise (fun a b => firstIdx l a.1 < firstIdx l b.1) := by
  match l with
  | [] => simp [counterItems]
  | x :: xs =>
    have ih := counterItems_pairwise (xs.filter (fun y => decide (y ≠ x)))
    rw [counterItems]
    constructor
    · intro p hp
      have hmem : p.1 ∈ xs.filter (fun y => decide (y ≠ x)) :=
        mem_counterItems_fst _ p hp
      have hne : ¬ x = p.1 := by
        have := List.of_mem_filter hmem
        simp only [decide_eq_true_eq] at this
        exact fun h => this h.symm
      show firstIdx (x :: xs) x < firstIdx (x :: xs) p.1
      rw [firstIdx, if_pos rfl, firstIdx, if_neg hne]
      omega
    · refine ih.imp_of_mem ?_
      intro a b hma hmb hab
      have hfa : a.1 ∈ xs.filter (fun y => decide (y ≠ x)) :=
        mem_counterItems_fst _ a hma
      have hfb : b.1 ∈ xs.filter (fun y => decide (y ≠ x)) :=
        mem_counterItems_fst _ b hmb
      have hxa : ¬ x = a.1 := by
        have := List.of_mem_filter hfa
        simp only [decide_eq_true_eq] at this
        exact fun h => this h.symm
      have hxb : ¬ x = b.1 := by
        have := List.of_mem_filter hfb
        simp only [decide_eq_true_eq] at this
        exact fun h => this h.symm
      show firstIdx (x :: xs) a.1 < firstIdx (x :: xs) b.1
      rw [firstIdx, if_neg hxa, firstIdx, if_neg hxb]
      have := firstIdx_filter_lt (fun y => decide (y ≠ x)) xs a.1 b.1 hfa hfb hab
      omega
termination_by l.length
decreasing_by
  simp only [List.length_cons]
  exact Nat.lt_succ_of_le (List.length_filter_le _ _)

theorem insertByCountDesc_perm (p : α × Nat) (l : List (α × Nat)) :
    List.Perm (insertByCountDesc p l) (p :: l) := by
  induction l with
  | nil => rfl
  | cons q rest ih =>
    rw [insertByCountDesc]
    by_cases h : p.2 < q.2
    · rw [if_pos h]
      exact (ih.cons q).trans (List.Perm.swap p q rest)
    · rw [if_neg h]

/-- The stable descending sort permutes its input. -/
theorem sortByCountDesc_perm (l : List (α × Nat)) :
    List.Perm (sortByCountDesc l) l := by
  induction l with
  | nil => rfl
  | cons x xs ih =>
    rw [sortByCountDesc]
    exact (insertByCountDesc_perm x _).trans (ih.cons x)

theorem mem_insertByCountDesc (p q : α × Nat) (l : List (α × Nat)) :
    q ∈ insertByCountDesc p l ↔ q = p ∨ q ∈ l :=
  ((insertByCountDesc_perm p l).mem_iff).trans (by simp)

/-- Inserting an element that the tie-break relation `S` puts before
every element of a sorted list keeps the list sorted for the combined
order `count descending, then S`. -/
theorem insertByCountDesc_pairwise {S : α × Nat → α × Nat → Prop}
    (p : α × Nat) (l : List (α × Nat))
    (hl : l.Pairwise (fun a b => b.2 < a.2 ∨ (a.2 = b.2 ∧ S a b)))
    (hS : ∀ q ∈ l, S p q) :
    (insertByCountDesc p l).Pairwise
      (fun a b => b.2 < a.2 ∨ (a.2 = b.2 ∧ S a b)) := by
  induction l with
  | nil => simp [insertByCountDesc]
  | cons q rest ih =>
    rw [insertByCountDesc]
    rw [List.pairwise_cons] at hl
    obtain ⟨hq, hrest⟩ := hl
    by_cases h : p.2 < q.2
    · rw [if_pos h]
      rw [List.pairwise_cons]
      refine ⟨?_, ih hrest (fun r hr => hS r (List.mem_cons_of_mem _ hr))⟩
      intro r hr
      rcases (mem_insertByCountDesc p r _).mp hr with hr | hr
      · subst hr
        exact Or.inl h
      · exact hq r hr
    · rw [if_neg h]
      rw [List.pairwise_cons]
      refine ⟨?_, List.pairwise_cons.mpr ⟨hq, hrest⟩⟩
      intro r hr
      rcases List.mem_cons.mp hr with hr | hr
      · subst hr
        by_cases he : r.2 = p.2
        · exact Or.inr ⟨he.symm, hS r (List.mem_cons_self _ _)⟩
        · exact Or.inl (by omega)
      · have hqr := hq r hr
        have hrq : r.2 ≤ q.2 := by
          rcases hqr with h' | h'
          · omega
          · omega
        by_cases he : p.2 = r.2
        · exact Or.inr ⟨he, hS r (List.mem_cons_of_mem _ hr)⟩
        · exact Or.inl (by omega)

/-- Sorting a list whose original order realizes `S` yields a list
sorted by count descending with ties in the original (`S`) order: this is
the stability of the sort. -/
theorem sortByCountDesc_pairwise {S : α × Nat → α × Nat → Prop}
    (l : List (α × Nat)) (hl : l.Pairwise S) :
    (sortByCountDesc l).Pairwise
      (fun a b => b.2 < a.2 ∨ (a.2 = b.2 ∧ S a b)) := by
  induction l with
  | nil => simp [sortByCountDesc]
  | cons x xs ih =>
    rw [List.pairwise_cons] at hl
    obtain ⟨hx, hxs⟩ := hl
    rw [sortByCountDesc]
    refine insertByCountDesc_pairwise x (sortByCountDesc xs) (ih hxs) ?_
    intro q hq
    exact hx q ((sortByCountDesc_perm xs).mem_iff.mp hq)

/-- C2: in any summary `extract` returns, the value ranking `top_F_s` is
sorted by frequency descending, its frequencies sum to the length of the
flat match list, and values with equal frequency appear in order of their
first occurrence in the flat match list. -/
theorem extract_c2 (records : TextList) (findall : String → List String)
    (extracted : Option (List (List String)))
    (s : Summary) (h : extract records findall extracted = some s) :
    s.top_F_s.Pairwise (fun a b => b.2 ≤ a.2) ∧
      (s.top_F_s.map Prod.snd).sum = s.F_s_flat.length ∧
      s.top_F_s.Pairwise (fun a b => a.2 = b.2 →
        firstIdx s.F_s_flat a.1 < firstIdx s.F_s_flat b.1) := by
  obtain ⟨hne, rfl⟩ := extract_some_inv records findall extracted s h
  have htop : (extractCore records findall extracted).top_F_s =
      sortByCountDesc
        (counterItems (extractCore records findall extracted).F_s_flat) := rfl
  have hP := sortByCountDesc_pairwise
    (S := fun a b =>
      firstIdx (extractCore records findall extracted).F_s_flat a.1 <
        firstIdx (extractCore records findall extracted).F_s_flat b.1)
    (counterItems (extractCore records findall extracted).F_s_flat)
    (counterItems_pairwise _)
  refine ⟨?_, ?_, ?_⟩
  · rw [htop]
    refine hP.imp ?_
    intro a b hab
    rcases hab with h' | h'
    · omega
    · omega
  · rw [htop]
    have hperm := (sortByCountDesc_perm
      (counterItems (extractCore records findall extracted).F_s_flat)).map
      Prod.snd
    rw [hperm.sum_eq]
    exact counterItems_snd_sum _
  · rw [htop]
    refine hP.imp ?_
    intro a b hab heq
    rcases hab with h' | h'
    · omega
    · exact h'.2

/-- Witness for C2 at a concrete input containing a frequency tie. -/
theorem extract_c2_witness :
    (extractCore (TextList.many ["b a b", "a c"])
        (fun t => (splitTokens t.toList).map String.mk) none).top_F_s.Pairwise
        (fun a b => b.2 ≤ a.2) ∧
      ((extractCore (TextList.many ["b a b", "a c"])
          (fun t => (splitTokens t.toList).map String.mk) none).top_F_s.map
        Prod.snd).sum =
        (extractCore (TextList.many ["b a b", "a c"])
          (fun t => (splitTokens t.toList).map String.mk) none).F_s_flat.length ∧
      (extractCore (TextList.many ["b a b", "a c"])
        (fun t => (splitTokens t.toList).map String.mk) none).top_F_s.Pairwise
        (fun a b => a.2 = b.2 →
          firstIdx (extractCore (TextList.many ["b a b", "a c"])
            (fun t => (splitTokens t.toList).map String.mk) none).F_s_flat a.1 <
          firstIdx (extractCore (TextList.many ["b a b", "a c"])
            (fun t => (splitTokens t.toList).map String.mk) none).F_s_flat b.1) :=
  extract_c2 (TextList.many ["b a b", "a c"])
    (fun t => (splitTokens t.toList).map String.mk) none
    (extractCore (TextList.many ["b a b", "a c"])
      (fun t => (splitTokens t.toList).map String.mk) none) rfl

/-- C4 (evaluation of the code at the claim's input): in whole-word mode
`extract_words` on `['there is rain, it is raining']` with target
`['rain']` finds exactly `[['rain']]` — `'raining'` is not matched, as
the claim states.  In substring mode, however, the code returns
`[['rain,', 'raining']]`, not the `[['rain', 'raining']]` asserted by the
claim and by the function's own docstring: the alternative is wrapped in
non-whitespace stars, so the match extends over the full contiguous
non-whitespace token `'rain,'`, comma included. -/
theorem extract_words_c4 :
    (∃ s, extract_words ["there is rain, it is raining"]
        (TextList.many ["rain"]) true = some s ∧ s.F_s = [["rain"]]) ∧
      ∃ s, extract_words ["there is rain, it is raining"]
        (TextList.many ["rain"]) false = some s ∧
        s.F_s = [["rain,", "raining"]] :=
  ⟨⟨_, rfl, by decide⟩, ⟨_, rfl, by decide⟩⟩

/-- C8: `surrounding_text` is produced by running the context-window
pattern (up to `left_chars` characters, a currency symbol, up to
`right_chars` characters) over each record's original-case text, and on
`['today ₿1 is around $4k']` with `left_chars = 0`, `right_chars = 3` it
yields `[['₿1 i', '$4k']]` — the second window is truncated at the end of
the string, not padded. -/
theorem extract_currency_c8 :
    (∀ (text_list : List String) (l r : Nat) (s : CurrencySummary),
        extract_currency text_list l r = some s →
        s.surrounding_text = text_list.map (surroundingFindall l r)) ∧
      ∃ s, extract_currency ["today ₿1 is around $4k"] 0 3 = some s ∧
        s.surrounding_text = [["₿1 i", "$4k"]] := by
  constructor
  · intro text_list l r s h
    rw [extract_currency] at h
    cases he : extract (TextList.many text_list) currencyFindall none with
    | none => rw [he] at h; cases h
    | some base =>
      rw [he] at h
      injection h with h'
      rw [← h']
  · exact ⟨_, rfl, by decide⟩

/-- Witness for C8's general part at a concrete input. -/
theorem extract_currency_c8_witness :
    (extract_currency ["ab $ cd"] 2 2).map CurrencySummary.surrounding_text =
      some ((["ab $ cd"] : List String).map (surroundingFindall 2 2)) := by
  cases he : extract_currency ["ab $ cd"] 2 2 with
  | none => simp [extract_currency, extract, normalizeTL] at he
  | some s =>
    have hg := extract_currency_c8.1 ["ab $ cd"] 2 2 s he
    simp [hg]

/-- A URL that has been normalized never begins (case-insensitively) with
`www` or `ftp`: either it was rewritten to begin with `http://`, or it
never began with either prefix. -/
theorem normalizeUrl_not_www_ftp (v : String) :
    lcHasPre (normalizeUrl v).toList (String.toList ("www")) = false ∧
      lcHasPre (normalizeUrl v).toList (String.toList ("ftp")) = false := by
  rw [normalizeUrl]
  by_cases hv : (lcHasPre v.toList (String.toList ("www")) ||
      lcHasPre v.toList (String.toList ("ftp"))) = true
  · rw [if_pos hv]
    exact ⟨rfl, rfl⟩
  · rw [if_neg hv]
    simp only [Bool.or_eq_true] at hv
    push_neg at hv
    exact ⟨Bool.not_eq_true _ ▸ Bool.of_not_eq_true hv.1,
      Bool.not_eq_true _ ▸ Bool.of_not_eq_true hv.2⟩

/-- C5: `extract_urls` rewrites every matched token that begins
case-insensitively with `www` or `ftp` by prefixing `http://` before
aggregation, so the per-record and flat URL lists of the summary carry
only normalized forms (none begins case-insensitively with `www` or
`ftp`); on `['two: http://a.com www.b.com']` the matched list is
`['http://a.com', 'http://www.b.com']` and the host derived for the
second entry is `'www.b.com'`. -/
theorem extract_urls_c5 :
    (∀ u : String, (lcHasPre u.toList (String.toList ("www")) = true ∨
          lcHasPre u.toList (String.toList ("ftp")) = true) →
        normalizeUrl u = ("http://") ++ u) ∧
      (∀ (text_list : List String) (s : UrlSummary),
        extract_urls text_list = some s →
        ∀ u ∈ s.base.F_s_flat,
          lcHasPre u.toList (String.toList ("www")) = false ∧
            lcHasPre u.toList (String.toList ("ftp")) = false) ∧
      ∃ s, extract_urls ["two: http://a.com www.b.com"] = some s ∧
        s.base.F_s = [["http://a.com", "http://www.b.com"]] ∧
        s.base.F_s_flat = ["http://a.com", "http://www.b.com"] ∧
        netloc ("http://www.b.com") = ("www.b.com") := by
  refine ⟨?_, ?_, ⟨_, rfl, by decide, by decide, by decide⟩⟩
  · intro u hu
    have hc : (lcHasPre u.toList (String.toList ("www")) ||
        lcHasPre u.toList (String.toList ("ftp"))) = true := by
      simp only [Bool.or_eq_true]
      rcases hu with hu | hu
      · exact Or.inl (by simpa using hu)
      · exact Or.inr (by simpa using hu)
    rw [normalizeUrl, if_pos hc]
  · intro text_list s h
    rw [extract_urls] at h
    cases he : extract (TextList.many text_list) urlFindall
        (some (text_list.map (fun x => (urlFindall x).map normalizeUrl))) with
    | none => rw [he] at h; cases h
    | some base =>
      rw [he] at h
      injection h with h'
      obtain ⟨hne, hbase⟩ := extract_some_inv _ _ _ base he
      intro u hu
      rw [← h'] at hu
      have htl : text_list ≠ [] := hne
      have hext : text_list.map (fun x => (urlFindall x).map normalizeUrl) ≠ [] := by
        intro hnil
        exact htl (List.map_eq_nil_iff.mp hnil)
      have hFs : base.F_s = text_list.map (fun x => (urlFindall x).map normalizeUrl) := by
        rw [hbase]
        exact extractCore_F_s_some _ _ _ hext
      have hflat : base.F_s_flat = base.F_s.flatten := by
        rw [hbase]
        exact extractCore_F_s_flat _ _ _
      rw [hflat, hFs] at hu
      obtain ⟨l, hl, hul⟩ := List.mem_flatten.mp hu
      obtain ⟨x, _, rfl⟩ := List.mem_map.mp hl
      obtain ⟨v, _, rfl⟩ := List.mem_map.mp hul
      exact normalizeUrl_not_www_ftp v

/-- Witness for C5's general parts at a concrete input. -/
theorem extract_urls_c5_witness :
    normalizeUrl ("www.b.com") = ("http://") ++ ("www.b.com") ∧
      lcHasPre (String.toList ("http://www.b.com")) (String.toList ("www")) = false ∧
      lcHasPre (String.toList ("http://www.b.com")) (String.toList ("ftp")) = false :=
  ⟨extract_urls_c5.1 ("www.b.com") (Or.inl (by decide)),
    extract_urls_c5.2.1 ["two: http://a.com www.b.com"] _ rfl
      ("http://www.b.com") (by decide)⟩

/-- A list comprehension whose body fails on some element fails as a
whole. -/
theorem optionMapList_eq_none (f : α → Option β) (l : List α) (x : α)
    (hx : x ∈ l) (hf : f x = none) : optionMapList f l = none := by
  induction l with
  | nil => cases hx
  | cons a rest ih =>
    rw [optionMapList]
    rcases List.mem_cons.mp hx with hx | hx
    · subst hx
      rw [hf]
    · cases ha : f a with
      | none => rfl
      | some b => rw [ih hx]

/-- C9: if any matched emoji grapheme is absent from the taxonomy table,
`extract_emoji` fails as a whole (the `KeyError` surfaces to the caller):
no summary is returned, no grapheme is skipped, nothing is substituted. -/
theorem extract_emoji_c9 (emojiFindall : String → List String)
    (entries : String → Option EmojiEntry) (text_list : List String)
    (em : String)
    (hmem : em ∈ (text_list.map (fun text => emojiFindall (pyLower text))).flatten)
    (hmiss : entries em = none) :
    extract_emoji emojiFindall entries text_list = none := by
  rw [extract_emoji]
  rw [optionMapList_eq_none entries _ em hmem hmiss]

/-- Witness for C9 at a concrete input: a one-grapheme table miss. -/
theorem extract_emoji_c9_witness :
    extract_emoji (fun _ => ["e"]) (fun _ => none) ["x"] = none :=
  extract_emoji_c9 (fun _ => ["e"]) (fun _ => none) ["x"] "e" (by decide) rfl

/-
Theory of the intense-word matcher, towards C6.
-/

theorem leadEq_le_length (c : Char) (l : List Char) : leadEq c l ≤ l.length := by
  induction l with
  | nil => simp [leadEq]
  | cons d rest ih =>
    rw [leadEq]
    by_cases hd : d = c
    · rw [if_pos hd, List.length_cons]
      omega
    · rw [if_neg hd]
      omega

theorem leadEq_ge (c : Char) (k : Nat) (rest : List Char)
    (h : ∀ i < k, rest.get? i = some c) : k ≤ leadEq c rest := by
  induction k generalizing rest with
  | zero => omega
  | succ k ih =>
    cases rest with
    | nil => simpa using h 0 (by omega)
    | cons d rest' =>
      have h0 : d = c := by simpa using h 0 (by omega)
      rw [leadEq, if_pos h0]
      have := ih rest' (fun i hi => by simpa using h (i + 1) (by omega))
      omega

theorem leadEq_get (c : Char) (l : List Char) (i : Nat) (hi : i < leadEq c l) :
    l.get? i = some c := by
  induction l generalizing i with
  | nil => simp [leadEq] at hi
  | cons d rest ih =>
    rw [leadEq] at hi
    by_cases hd : d = c
    · rw [if_pos hd] at hi
      cases i with
      | zero => simpa using hd
      | succ i => simpa using ih i (by omega)
    · rw [if_neg hd] at hi
      omega

theorem get?_drop_add (l : List Char) (i j : Nat) :
    (l.drop i).get? j = l.get? (i + j) := by
  simp [List.get?_eq_getElem?, List.getElem?_drop]

/-- Characterization of the repetition condition: it holds at `j` with
repetition count `k` exactly when the suffix at `j` starts with `k + 1`
copies of one character. -/
theorem repAt_true_iff (cs : List Char) (k j : Nat) :
    repAt cs k j = true ↔
      ∃ c, cs.get? j = some c ∧ k ≤ leadEq c (cs.drop (j + 1)) := by
  rw [repAt]
  cases hget : cs.get? j with
  | none => simp [hget]
  | some c =>
    simp only [hget, List.all_eq_true, List.mem_range, decide_eq_true_eq,
      Option.some.injEq]
    constructor
    · intro h
      refine ⟨c, rfl, leadEq_ge c k _ (fun i hi => ?_)⟩
      rw [get?_drop_add]
      exact h i hi
    · rintro ⟨c', hc', hlead⟩
      subst hc'
      intro i hi
      have := leadEq_get c (cs.drop (j + 1)) i (by omega)
      rwa [get?_drop_add] at this

theorem maxRunLen_drop_le (cs : List Char) (j : Nat) :
    maxRunLen (cs.drop j) ≤ maxRunLen cs := by
  induction cs generalizing j with
  | nil => simp
  | cons c rest ih =>
    cases j with
    | zero => simp
    | succ j =>
      rw [List.drop_succ_cons]
      calc maxRunLen (rest.drop j) ≤ maxRunLen rest := ih j
        _ ≤ maxRunLen (c :: rest) := by rw [maxRunLen]; omega

theorem repAt_imp_run (cs : List Char) (k j : Nat) (h : repAt cs k j = true) :
    k + 1 ≤ maxRunLen cs := by
  obtain ⟨c, hget, hlead⟩ := (repAt_true_iff cs k j).mp h
  obtain ⟨hj, _⟩ := List.get?_eq_some.mp hget
  have hdrop : cs.drop j = cs.get ⟨j, hj⟩ :: cs.drop (j + 1) :=
    List.drop_eq_getElem_cons hj
  have hc : cs.get ⟨j, hj⟩ = c := by
    have := List.get?_eq_get hj
    rw [hget] at this
    exact (Option.some.injEq _ _).mp this.symm
  have h1 : k + 1 ≤ maxRunLen (cs.drop j) := by
    rw [hdrop, hc, maxRunLen]
    omega
  calc k + 1 ≤ maxRunLen (cs.drop j) := h1
    _ ≤ maxRunLen cs := maxRunLen_drop_le cs j

theorem repAt_bound (cs : List Char) (k j : Nat) (h : repAt cs k j = true) :
    j + k < cs.length := by
  obtain ⟨c, hget, hlead⟩ := (repAt_true_iff cs k j).mp h
  obtain ⟨hj, _⟩ := List.get?_eq_some.mp hget
  have hlen : (cs.drop (j + 1)).length = cs.length - (j + 1) :=
    List.length_drop _ _
  have := leadEq_le_length c (cs.drop (j + 1))
  omega

theorem run_imp_repAt (cs : List Char) (k : Nat)
    (h : k + 1 ≤ maxRunLen cs) :
    ∃ j, repAt cs k j = true ∧ j + k < cs.length := by
  induction cs with
  | nil => simp [maxRunLen] at h
  | cons c rest ih =>
    rw [maxRunLen] at h
    by_cases h1 : k + 1 ≤ 1 + leadEq c rest
    · refine ⟨0, ?_, ?_⟩
      · rw [repAt_true_iff]
        refine ⟨c, by simp, ?_⟩
        simpa using (by omega : k ≤ leadEq c rest)
      · have := leadEq_le_length c rest
        rw [List.length_cons]
        omega
    · have h2 : k + 1 ≤ maxRunLen rest := by omega
      obtain ⟨j, hrep, hb⟩ := ih h2
      refine ⟨j + 1, ?_, by rw [List.length_cons]; omega⟩
      rw [repAt_true_iff] at hrep ⊢
      obtain ⟨d, hget, hlead⟩ := hrep
      exact ⟨d, by simpa using hget, by simpa using hlead⟩

theorem greedyRep_none (cs : List Char) (k : Nat)
    (h : ∀ a, repAt cs k a = false) (i : Nat) :
    ∀ b, greedyRep cs k i b = none := by
  intro b
  induction b with
  | zero =>
    rw [greedyRep, if_neg]
    simp [h i]
  | succ b ih =>
    rw [greedyRep, if_neg, ih]
    simp [h (i + (b + 1))]

theorem greedyRep_sound (cs : List Char) (k i : Nat) :
    ∀ b a, greedyRep cs k i b = some a →
      repAt cs k (i + a) = true ∧ a ≤ b := by
  intro b
  induction b with
  | zero =>
    intro a h
    rw [greedyRep] at h
    by_cases hr : repAt cs k i = true
    · rw [if_pos hr] at h
      injection h with h'
      subst h'
      simpa using hr
    · rw [if_neg hr] at h
      cases h
  | succ b ih =>
    intro a h
    rw [greedyRep] at h
    by_cases hr : repAt cs k (i + (b + 1)) = true
    · rw [if_pos hr] at h
      injection h with h'
      subst h'
      exact ⟨hr, Nat.le_refl _⟩
    · rw [if_neg hr] at h
      have := ih a h
      exact ⟨this.1, by omega⟩

theorem greedyRep_some (cs : List Char) (k i : Nat) :
    ∀ b, (∃ a, a ≤ b ∧ repAt cs k (i + a) = true) →
      ∃ a, greedyRep cs k i b = some a := by
  intro b
  induction b with
  | zero =>
    rintro ⟨a, ha, hr⟩
    have ha0 : a = 0 := by omega
    subst ha0
    rw [greedyRep, if_pos (by simpa using hr)]
    exact ⟨0, rfl⟩
  | succ b ih =>
    rintro ⟨a, ha, hr⟩
    rw [greedyRep]
    by_cases hb : repAt cs k (i + (b + 1)) = true
    · rw [if_pos hb]
      exact ⟨b + 1, rfl⟩
    · rw [if_neg hb]
      refine ih ⟨a, ?_, hr⟩
      rcases Nat.lt_or_ge a (b + 1) with h' | h'
      · omega
      · have ha' : a = b + 1 := by omega
        rw [ha'] at hr
        exact absurd hr hb

theorem takeWhile_all {p : α → Bool} (l : List α)
    (h : ∀ c ∈ l, p c = true) : l.takeWhile p = l := by
  induction l with
  | nil => rfl
  | cons c rest ih =>
    rw [List.takeWhile_cons, if_pos (h c (List.mem_cons_self _ _))]
    rw [ih (fun d hd => h d (List.mem_cons_of_mem _ hd))]

/-- On a whitespace-free text, the non-whitespace run from any position
reaches the end of the text. -/
theorem nonspaceRunLen_all (cs : List Char)
    (h : ∀ c ∈ cs, isPySpace c = false) (i : Nat) :
    nonspaceRunLen cs i = cs.length - i := by
  rw [nonspaceRunLen, takeWhile_all, List.length_drop]
  intro c hc
  simp [h c (List.mem_of_mem_drop hc)]

theorem tryIntenseAt_none (k : Nat) (cs : List Char) (i : Nat)
    (h : ∀ a, repAt cs k a = false) : tryIntenseAt k cs i = none := by
  rw [tryIntenseAt]
  by_cases hm : nonspaceRunLen cs i = 0
  · simp [hm]
  · rw [if_neg hm, greedyRep_none cs k h i (nonspaceRunLen cs i - 1)]

theorem tryIntenseAt_past (k : Nat) (cs : List Char) (i : Nat)
    (h : cs.length ≤ i) : tryIntenseAt k cs i = none := by
  rw [tryIntenseAt]
  have hm : nonspaceRunLen cs i = 0 := by
    rw [nonspaceRunLen, List.drop_eq_nil_of_le h]
    rfl
  simp [hm]

theorem scanAux_none {β : Type} (tryAt : Nat → Option (Nat × β))
    (stop : Nat) (h : ∀ p, tryAt p = none) :
    ∀ fuel i, scanAux tryAt stop fuel i = [] := by
  intro fuel
  induction fuel with
  | zero => intro i; rfl
  | succ f ih =>
    intro i
    rw [scanAux, h i]
    split
    · rfl
    · exact ih (i + 1)

theorem scanAux_past {β : Type} (tryAt : Nat → Option (Nat × β))
    (stop fuel i : Nat) (h : stop < i) : scanAux tryAt stop fuel i = [] := by
  cases fuel with
  | zero => rfl
  | succ f => rw [scanAux, if_pos h]

/-- A pattern that matches the whole text at position 0 and nowhere at or
past the end produces exactly one match. -/
theorem reFindall_single {β : Type} (tryAt : Nat → Option (Nat × β))
    (n : Nat) (b : β) (hn : 1 ≤ n) (h0 : tryAt 0 = some (n, b))
    (hrest : ∀ p, n ≤ p → tryAt p = none) :
    reFindall tryAt n = [b] := by
  rw [reFindall]
  cases n with
  | zero => omega
  | succ m =>
    rw [scanAux, if_neg (by omega), h0]
    show b :: scanAux tryAt (m + 1) (m + 1) (if 0 < m + 1 then m + 1 else 0 + 1) = [b]
    rw [if_pos (by omega), scanAux, if_neg (by omega), hrest (m + 1) (Nat.le_refl _)]
    show b :: scanAux tryAt (m + 1) m (m + 1 + 1) = [b]
    rw [scanAux_past tryAt (m + 1) m (m + 1 + 1) (by omega)]

/-- On a non-empty whitespace-free text containing a `k+1`-fold
repetition, the anchored intense-word matcher at position 0 matches the
whole text: the greedy leading group takes `a` characters, the
repetition starts there, and the trailing star runs to the end. -/
theorem tryIntenseAt_token (k : Nat) (cs : List Char)
    (hns : ∀ c ∈ cs, isPySpace c = false) (hne : cs ≠ [])
    (hrun : k + 1 ≤ maxRunLen cs) :
    ∃ a, a < cs.length ∧ tryIntenseAt k cs 0 = some (cs.length,
      (cs.take a, (cs.drop a).take 1,
        (cs.drop (a + 1)).take (cs.length - (a + 1)))) := by
  have hlen : ¬ cs.length = 0 := fun h => hne (List.length_eq_zero.mp h)
  have hm : nonspaceRunLen cs 0 = cs.length := by
    rw [nonspaceRunLen_all cs hns 0]
    omega
  obtain ⟨j, hj, hjb⟩ := run_imp_repAt cs k hrun
  obtain ⟨a, ha⟩ := greedyRep_some cs k 0 (cs.length - 1)
    ⟨j, by omega, by simpa using hj⟩
  obtain ⟨hrep, hab⟩ := greedyRep_sound cs k 0 (cs.length - 1) a ha
  rw [Nat.zero_add] at hrep
  have hbound := repAt_bound cs k a hrep
  refine ⟨a, by omega, ?_⟩
  rw [tryIntenseAt]
  simp only [hm, Nat.zero_add]
  rw [if_neg hlen, ha]
  show some (a + 1 + k + nonspaceRunLen cs (a + 1 + k),
      ((cs.drop 0).take a, (cs.drop a).take 1,
        (cs.drop (a + 1)).take
          (a + 1 + k + nonspaceRunLen cs (a + 1 + k) - (a + 1)))) = _
  rw [nonspaceRunLen_all cs hns (a + 1 + k)]
  have h1 : a + 1 + k + (cs.length - (a + 1 + k)) = cs.length := by omega
  rw [h1, List.drop_zero]

/-- Joining the three capture groups of a whole-token match rebuilds the
token. -/
theorem joinGroups_split (cs : List Char) (a : Nat) (_ha : a < cs.length) :
    joinGroups (cs.take a, (cs.drop a).take 1,
      (cs.drop (a + 1)).take (cs.length - (a + 1))) = String.mk cs := by
  rw [joinGroups]
  congr 1
  have h3 : (cs.drop (a + 1)).take (cs.length - (a + 1)) = cs.drop (a + 1) := by
    apply List.take_of_length_le
    rw [List.length_drop]
  have h4 : cs.drop (a + 1) = (cs.drop a).drop 1 := by
    rw [List.drop_drop, Nat.add_comm]
  rw [h3, h4, List.append_assoc, List.take_append_drop, List.take_append_drop]

theorem intenseFindall_pos (k : Nat) (t : String)
    (hns : ∀ c ∈ t.toList, isPySpace c = false) (hne : t.toList ≠ [])
    (hrun : k + 1 ≤ maxRunLen t.toList) :
    (intenseFindall k t).map joinGroups = [t] := by
  obtain ⟨a, ha, htry⟩ := tryIntenseAt_token k t.toList hns hne hrun
  have h1 : 1 ≤ t.toList.length := List.length_pos.mpr hne
  rw [intenseFindall]
  rw [reFindall_single (tryIntenseAt k t.toList) t.toList.length _ h1 htry
    (fun p hp => tryIntenseAt_past k t.toList p hp)]
  rw [List.map_cons, List.map_nil, joinGroups_split t.toList a ha]
  have hmk : String.mk t.toList = t := by cases t; rfl
  rw [hmk]

theorem intenseFindall_neg (k : Nat) (t : String)
    (hnorun : maxRunLen t.toList < k + 1) :
    intenseFindall k t = [] := by
  rw [intenseFindall, reFindall]
  apply scanAux_none
  intro p
  apply tryIntenseAt_none
  intro a
  by_cases h : repAt t.toList k a = true
  · exact absurd (repAt_imp_run _ _ _ h) (by omega)
  · simpa using h

/-- C6: for every `min_reps ≥ 1` and every non-empty whitespace-free
token, `extract_intense_words` detects the token exactly when some
character repeats at least `min_reps` times consecutively within it, and
the reported match is the full token (the concatenation of the three
capture groups); concretely, with `min_reps = 3` the token `soooo` is
detected, a run of exactly three (`ooo`, the minimum qualifying case) is
detected, and `soo` is not. -/
theorem extract_intense_words_c6 :
    (∀ min_reps : Nat, 1 ≤ min_reps → ∀ t : String, t.toList ≠ [] →
        (∀ c ∈ t.toList, isPySpace c = false) →
        ∃ s, extract_intense_words [t] min_reps = some s ∧
          s.F_s = [if min_reps ≤ maxRunLen t.toList then [t] else []]) ∧
      (∃ s, extract_intense_words ["soooo"] 3 = some s ∧
        s.F_s = [["soooo"]]) ∧
      (∃ s, extract_intense_words ["ooo"] 3 = some s ∧ s.F_s = [["ooo"]]) ∧
      (∃ s, extract_intense_words ["soo"] 3 = some s ∧ s.F_s = [[]]) := by
  refine ⟨?_, ⟨_, rfl, by decide⟩, ⟨_, rfl, by decide⟩, ⟨_, rfl, by decide⟩⟩
  intro m hm t hne hns
  have hmap : ([t].map (fun text => (intenseFindall (m - 1) text).map joinGroups)) =
      [(intenseFindall (m - 1) t).map joinGroups] := by
    rw [List.map_cons, List.map_nil]
  have hnil : ([t].map (fun text => (intenseFindall (m - 1) text).map joinGroups)) ≠ [] := by
    rw [hmap]
    exact List.cons_ne_nil _ _
  have hsome := extract_eq_some (TextList.many [t])
    (fun text => (intenseFindall (m - 1) text).map joinGroups)
    (some ([t].map (fun text => (intenseFindall (m - 1) text).map joinGroups)))
    (by simp [normalizeTL])
  refine ⟨_, hsome, ?_⟩
  rw [extractCore_F_s_some _ _ _ hnil, hmap]
  by_cases hrun : m ≤ maxRunLen t.toList
  · rw [if_pos hrun, intenseFindall_pos (m - 1) t hns hne (by omega)]
  · rw [if_neg hrun, intenseFindall_neg (m - 1) t (by omega), List.map_nil]

/-- Witness for C6's general part at a concrete token. -/
theorem extract_intense_words_c6_witness :
    (extract_intense_words ["heyyy"] 3).map Summary.F_s =
      some [if 3 ≤ maxRunLen (String.toList ("heyyy")) then ["heyyy"] else []] := by
  obtain ⟨s, hs, hF⟩ := extract_intense_words_c6.1 3 (by decide) ("heyyy")
    (by decide) (by decide)
  rw [hs]
  simp [hF]
